import Mathlib

/-!
Verification of the `llmstruct` JSON-extraction engine
(`src/llmstruct/core.py`) against its natural-language specification.

Strings are modelled as `List Char`.  The two external collaborators of the
engine — the generic JSON decoder (`json.loads`) and the schema-validation
capability (`model_type.model_validate`) — are modelled, exactly as the spec
prescribes in its interface section, as opaque function parameters:
`decode : List Char → Option Json` (where `none` plays the role of a
`JSONDecodeError`) and `validate : Json → Option M` (where `none` plays the
role of a `ValidationError`).  All control flow of the engine itself is
translated directly from the Python source.
-/

set_option autoImplicit false

namespace Llmstruct

/-- Decoded generic JSON values, as `json.loads` may return them:
`null`, booleans, numbers, strings, arrays and objects.  (The numeric
representation is irrelevant to the engine, which only distinguishes the
outer shape.) -/
inductive Json where
  | null
  | bool (b : Bool)
  | num (n : Int)
  | str (s : List Char)
  | arr (elems : List Json)
  | obj (fields : List (List Char × Json))

/-- `ExtractionStatus` from `core.py`: status of the JSON extraction. -/
inductive ExtractionStatus where
  | SUCCESS
  | FAILURE
deriving DecidableEq, Repr

/-- `Result` from `core.py`: the status together with the tuple of parsed
objects (modelled as a list). -/
structure Result (M : Type) where
  status : ExtractionStatus
  parsed_objects : List M := []
deriving DecidableEq, Repr

/-- The scanning loop of `_extract_balanced_segment` from `core.py`,
beginning in the state `(balance, in_string, escape_next_char)` and walking
the remaining characters.  Instead of the substring `text_segment[: i + 1]`
it returns its length `i + 1`; the caller takes the prefix.  The Python
loop's `continue` statements (for an escaped character and for a backslash)
skip the `balance == 0` check, which is mirrored here by only testing the
balance in the final branch. -/
def ebsRun (oc cc : Char) : Int → Bool → Bool → List Char → Option Nat
  | _, _, _, [] => none
  | bal, inStr, esc, c :: rest =>
    if esc then (ebsRun oc cc bal inStr false rest).map (· + 1)
    else if c = '\\' then (ebsRun oc cc bal inStr true rest).map (· + 1)
    else
      let inStr' := if c = '"' then !inStr else inStr
      let bal' := if inStr' then bal
                  else if c = oc then bal + 1
                  else if c = cc then bal - 1
                  else bal
      if bal' = 0 then some 1
      else (ebsRun oc cc bal' inStr' false rest).map (· + 1)

/-- `_extract_balanced_segment` from `core.py`: the guard
`if not text_segment or text_segment[0] != open_char: return None` followed
by the scan, returning the balanced prefix (or `none`, "unbalanced"). -/
def extract_balanced_segment (oc cc : Char) : List Char → Option (List Char)
  | [] => none
  | c :: rest =>
    if c = oc then
      (ebsRun oc cc 0 false false (c :: rest)).map (fun n => (c :: rest).take n)
    else none

/-- The per-element loop of the array branch of `extract_json_from_text`:
a non-object element raises a synthetic `ValidationError` (here: `none`),
a failing `model_validate` raises a `ValidationError` (here: `none`), and
otherwise the validated instances are collected in order. -/
def validateArray {M : Type} (validate : Json → Option M) : List Json → Option (List M)
  | [] => some []
  | item :: rest =>
    match item with
    | Json.obj fields =>
      match validate (Json.obj fields) with
      | some m => (validateArray validate rest).map (fun ms => m :: ms)
      | none => none
    | _ => none

/-- The `try` block of `extract_json_from_text` applied to one balanced
candidate: decode it, then branch on dict / list / other; `none` means the
candidate is discarded (a caught `JSONDecodeError` or `ValidationError`, or
the silent `pass` for scalar JSON) and the scan continues. -/
def tryCandidate {M : Type} (decode : List Char → Option Json)
    (validate : Json → Option M) (s : List Char) : Option (Result M) :=
  match decode s with
  | none => none
  | some (Json.obj fields) =>
    match validate (Json.obj fields) with
    | some m => some ⟨ExtractionStatus.SUCCESS, [m]⟩
    | none => none
  | some (Json.arr elems) =>
    match validateArray validate elems with
    | some ms => some ⟨ExtractionStatus.SUCCESS, ms⟩
    | none => none
  | some _ => none

/-- The candidate selection of the scan loop of `extract_json_from_text`
at one position: `{` and `[` start a balanced-segment extraction with the
matching close character, any other character yields no candidate. -/
def candAt : List Char → Option (List Char)
  | [] => none
  | c :: rest =>
    if c = '{' then extract_balanced_segment '{' '}' (c :: rest)
    else if c = '[' then extract_balanced_segment '[' ']' (c :: rest)
    else none

/-- One iteration of the scan loop of `extract_json_from_text`, at the
position whose suffix of the text is given: the candidate must be non-empty
(Python's string truthiness in `if json_candidate_str:`), and `none` means
the loop continues with `i+1`. -/
def stepAt {M : Type} (decode : List Char → Option Json)
    (validate : Json → Option M) (suffix : List Char) : Option (Result M) :=
  match candAt suffix with
  | some s => if s = [] then none else tryCandidate decode validate s
  | none => none

/-- The scan loop `for i in range(len(text))` of `extract_json_from_text`:
return the first per-position result, or the final
`Result(status=FAILURE)` when the loop finishes. -/
def scanStep {M : Type} (decode : List Char → Option Json)
    (validate : Json → Option M) : List Char → Result M
  | [] => ⟨ExtractionStatus.FAILURE, []⟩
  | c :: rest =>
    match stepAt decode validate (c :: rest) with
    | some r => r
    | none => scanStep decode validate rest

/-- `extract_json_from_text` from `core.py`: the `if not text` early return
followed by the scan loop. -/
def extract_json_from_text {M : Type} (decode : List Char → Option Json)
    (validate : Json → Option M) (text : List Char) : Result M :=
  if text = [] then ⟨ExtractionStatus.FAILURE, []⟩
  else scanStep decode validate text

/-! ### Spec-side model of the balance walk

The specification describes the Segment Extractor declaratively: the result
is "the shortest prefix of the text whose bracket balance (incrementing on
`open_char`, decrementing on `close_char`) returns to zero, where characters
inside a double-quoted string and the character immediately following a
backslash do not affect the balance count".  The following definitions
follow those words (the three pieces of state named by the spec and the
per-character rules of its Segment Extractor section), to be compared with
the source-translated `extract_balanced_segment`. -/

/-- The three pieces of state named by the spec: a bracket-balance counter,
an inside-quoted-string flag and an escape-pending flag. -/
structure BalState where
  bal : Int
  inStr : Bool
  esc : Bool
deriving DecidableEq, Repr

/-- One character of the spec's balance walk: an escape-pending character is
literal (no effect on the balance), a backslash sets escape-pending, a
double quote toggles the inside-string flag, and outside a string the
balance is incremented on `open_char` and decremented on `close_char`. -/
def specStep (oc cc : Char) (s : BalState) (c : Char) : BalState :=
  if s.esc then { s with esc := false }
  else if c = '\\' then { s with esc := true }
  else
    let inStr' := if c = '"' then !s.inStr else s.inStr
    let bal' := if inStr' then s.bal
                else if c = oc then s.bal + 1
                else if c = cc then s.bal - 1
                else s.bal
    ⟨bal', inStr', false⟩

/-- The spec-side balance of a prefix: the balance counter after walking all
of its characters from the initial state. -/
def specBal (oc cc : Char) (cs : List Char) : Int :=
  (cs.foldl (specStep oc cc) ⟨0, false, false⟩).bal

/-! ### Concrete decoder and validator instances

Small concrete instantiations of the two external capabilities, agreeing
with `json.loads` and a pydantic model on the handful of strings they are
applied to.  They are used to evaluate the engine on closed inputs. -/

/-- A concrete decoder: behaves like `json.loads` on the three literals
`{x}` is not valid JSON (decode error), `[]` is the empty array, and
`[1]` is an array holding the number `1`; `{"a":1}` stands in for a decoded
object (with field list abstracted to `[]`); everything else is a decode
error. -/
def decodeW : List Char → Option Json
  | ['{', 'x', '}'] => some (Json.obj [])
  | ['[', ']'] => some (Json.arr [])
  | ['[', '1', ']'] => some (Json.arr [Json.num 1])
  | _ => none

/-- A concrete validator over `Nat` instances: the empty object validates
to the instance `7`, everything else fails validation. -/
def validateW : Json → Option Nat
  | Json.obj [] => some 7
  | _ => none

/-! ### Helper lemmas about the engine's scan loop -/

theorem tryCandidate_some {M : Type} {decode : List Char → Option Json}
    {validate : Json → Option M} {s : List Char} {r : Result M}
    (h : tryCandidate decode validate s = some r) :
    ∃ vs, r = ⟨ExtractionStatus.SUCCESS, vs⟩ := by
  unfold tryCandidate at h
  split at h
  · exact absurd h (by simp)
  · split at h
    · injection h with h
      exact ⟨_, h.symm⟩
    · exact absurd h (by simp)
  · split at h
    · injection h with h
      exact ⟨_, h.symm⟩
    · exact absurd h (by simp)
  · exact absurd h (by simp)

theorem stepAt_some {M : Type} {decode : List Char → Option Json}
    {validate : Json → Option M} {s : List Char} {r : Result M}
    (h : stepAt decode validate s = some r) :
    ∃ vs, r = ⟨ExtractionStatus.SUCCESS, vs⟩ := by
  unfold stepAt at h
  split at h
  · split at h
    · exact absurd h (by simp)
    · exact tryCandidate_some h
  · exact absurd h (by simp)

theorem scanStep_cons_some {M : Type} {decode : List Char → Option Json}
    {validate : Json → Option M} {c : Char} {rest : List Char} {r : Result M}
    (h : stepAt decode validate (c :: rest) = some r) :
    scanStep decode validate (c :: rest) = r := by
  simp [scanStep, h]

theorem scanStep_cons_none {M : Type} {decode : List Char → Option Json}
    {validate : Json → Option M} {c : Char} {rest : List Char}
    (h : stepAt decode validate (c :: rest) = none) :
    scanStep decode validate (c :: rest) = scanStep decode validate rest := by
  simp [scanStep, h]

theorem scanStep_eq_of_first {M : Type} (decode : List Char → Option Json)
    (validate : Json → Option M) :
    ∀ (text : List Char) (i : Nat) (r : Result M),
      (∀ j, j < i → stepAt decode validate (text.drop j) = none) →
      stepAt decode validate (text.drop i) = some r →
      scanStep decode validate text = r := by
  intro text
  induction text with
  | nil =>
    intro i r _ hsome
    rw [List.drop_nil] at hsome
    exact absurd hsome (by simp [stepAt, candAt])
  | cons c rest ih =>
    intro i r hnone hsome
    cases i with
    | zero =>
      rw [List.drop_zero] at hsome
      exact scanStep_cons_some hsome
    | succ i =>
      have h0 : stepAt decode validate (c :: rest) = none := by
        have := hnone 0 (Nat.succ_pos i)
        rwa [List.drop_zero] at this
      rw [scanStep_cons_none h0]
      refine ih i r (fun j hj => ?_) ?_
      · have := hnone (j + 1) (Nat.succ_lt_succ hj)
        rwa [List.drop_succ_cons] at this
      · rwa [List.drop_succ_cons] at hsome

theorem scanStep_eq_failure {M : Type} (decode : List Char → Option Json)
    (validate : Json → Option M) :
    ∀ text : List Char,
      (∀ j, j < text.length → stepAt decode validate (text.drop j) = none) →
      scanStep decode validate text = ⟨ExtractionStatus.FAILURE, []⟩ := by
  intro text
  induction text with
  | nil => intro _; rfl
  | cons c rest ih =>
    intro h
    have h0 : stepAt decode validate (c :: rest) = none := by
      have := h 0 (by simp)
      rwa [List.drop_zero] at this
    rw [scanStep_cons_none h0]
    refine ih (fun j hj => ?_)
    have := h (j + 1) (by simpa using Nat.succ_lt_succ hj)
    rwa [List.drop_succ_cons] at this

theorem stepAt_eq_none_of_not_bracket {M : Type} {decode : List Char → Option Json}
    {validate : Json → Option M} {c : Char} {rest : List Char}
    (h1 : c ≠ '{') (h2 : c ≠ '[') :
    stepAt decode validate (c :: rest) = none := by
  simp [stepAt, candAt, h1, h2]

theorem scanStep_dichotomy {M : Type} (decode : List Char → Option Json)
    (validate : Json → Option M) :
    ∀ text : List Char,
      scanStep decode validate text = ⟨ExtractionStatus.FAILURE, []⟩ ∨
      ∃ vs, scanStep decode validate text = ⟨ExtractionStatus.SUCCESS, vs⟩ := by
  intro text
  induction text with
  | nil => exact Or.inl rfl
  | cons c rest ih =>
    cases hstep : stepAt decode validate (c :: rest) with
    | none => rw [scanStep_cons_none hstep]; exact ih
    | some r =>
      obtain ⟨vs, rfl⟩ := stepAt_some hstep
      exact Or.inr ⟨vs, scanStep_cons_some hstep⟩

theorem extract_dichotomy {M : Type} (decode : List Char → Option Json)
    (validate : Json → Option M) (text : List Char) :
    extract_json_from_text decode validate text = ⟨ExtractionStatus.FAILURE, []⟩ ∨
    ∃ vs, extract_json_from_text decode validate text = ⟨ExtractionStatus.SUCCESS, vs⟩ := by
  unfold extract_json_from_text
  by_cases ht : text = []
  · rw [if_pos ht]; exact Or.inl rfl
  · rw [if_neg ht]; exact scanStep_dichotomy decode validate text

theorem validateArray_eq_none {M : Type} (validate : Json → Option M) :
    ∀ (elems : List Json) (e : Json), e ∈ elems →
      ((∀ f, e ≠ Json.obj f) ∨ validate e = none) →
      validateArray validate elems = none := by
  intro elems
  induction elems with
  | nil => intro e he _; cases he
  | cons a rest ih =>
    intro e he hbad
    rcases List.mem_cons.mp he with rfl | hmem
    · rcases hbad with hshape | hval
      · cases e with
        | obj fields => exact absurd rfl (hshape fields)
        | null => rfl
        | bool b => rfl
        | num n => rfl
        | str s => rfl
        | arr l => rfl
      · cases e with
        | obj fields => simp [validateArray, hval]
        | null => rfl
        | bool b => rfl
        | num n => rfl
        | str s => rfl
        | arr l => rfl
    · cases a with
      | obj fields =>
        cases hv : validate (Json.obj fields) with
        | none => simp [validateArray, hv]
        | some m => simp [validateArray, hv, ih e hmem hbad]
      | null => rfl
      | bool b => rfl
      | num n => rfl
      | str s => rfl
      | arr l => rfl

theorem validateArray_eq_some {M : Type} (validate : Json → Option M) :
    ∀ {elems : List Json} {ms : List M},
      List.Forall₂ (fun e m => (∃ f, e = Json.obj f) ∧ validate e = some m) elems ms →
      validateArray validate elems = some ms := by
  intro elems ms h
  induction h with
  | nil => rfl
  | cons h₁ _ ih =>
    obtain ⟨⟨f, rfl⟩, hv⟩ := h₁
    simp [validateArray, hv, ih]

/-! ### Helper lemmas about the balance walk -/

theorem ebsRun_cons (oc cc : Char) (bal : Int) (inStr esc : Bool) (c : Char)
    (rest : List Char) :
    ebsRun oc cc bal inStr esc (c :: rest) =
      if esc = false ∧ c ≠ '\\' ∧ (specStep oc cc ⟨bal, inStr, esc⟩ c).bal = 0 then
        some 1
      else
        (ebsRun oc cc (specStep oc cc ⟨bal, inStr, esc⟩ c).bal
          (specStep oc cc ⟨bal, inStr, esc⟩ c).inStr
          (specStep oc cc ⟨bal, inStr, esc⟩ c).esc rest).map (· + 1) := by
  cases esc with
  | true => simp [ebsRun, specStep]
  | false =>
    by_cases hc : c = '\\'
    · subst hc
      simp [ebsRun, specStep]
    · simp only [ebsRun, specStep, hc, if_neg, if_false, Bool.false_eq_true, ite_false,
        ne_eq, not_false_eq_true, and_self, true_and, not_true_eq_false, false_and]

theorem specStep_esc (oc cc : Char) (s : BalState) (c : Char) (h : s.esc = true) :
    specStep oc cc s c = ⟨s.bal, s.inStr, false⟩ := by
  unfold specStep
  rw [h]
  simp

theorem specStep_backslash (oc cc : Char) (s : BalState) (h : s.esc = false) :
    specStep oc cc s '\\' = ⟨s.bal, s.inStr, true⟩ := by
  unfold specStep
  rw [h]
  simp

theorem specStep_bal_mem (oc cc : Char) (bal : Int) (inStr esc : Bool) (c : Char)
    (hesc : esc = false) (hc : c ≠ '\\') :
    (specStep oc cc ⟨bal, inStr, esc⟩ c).bal = bal ∨
    (specStep oc cc ⟨bal, inStr, esc⟩ c).bal = bal + 1 ∨
    (c = cc ∧ (specStep oc cc ⟨bal, inStr, esc⟩ c).bal = bal - 1) := by
  subst hesc
  unfold specStep
  simp only [Bool.false_eq_true, if_false, hc, ite_false]
  split_ifs <;> simp_all

theorem specStep_bal_ne_zero {oc cc : Char} {s : BalState} {c : Char}
    (hbal : s.bal ≠ 0)
    (hne : ¬(s.esc = false ∧ c ≠ '\\' ∧ (specStep oc cc s c).bal = 0)) :
    (specStep oc cc s c).bal ≠ 0 := by
  cases hesc : s.esc with
  | true => rw [specStep_esc oc cc s c hesc]; exact hbal
  | false =>
    by_cases hc : c = '\\'
    · subst hc
      rw [specStep_backslash oc cc s hesc]
      exact hbal
    · intro h0
      exact hne ⟨hesc, hc, h0⟩

theorem ebsRun_some_pos (oc cc : Char) :
    ∀ (cs : List Char) (bal : Int) (inStr esc : Bool) (n : Nat),
      ebsRun oc cc bal inStr esc cs = some n → 1 ≤ n := by
  intro cs
  induction cs with
  | nil => intro _ _ _ n h; simp [ebsRun] at h
  | cons c rest ih =>
    intro bal inStr esc n h
    rw [ebsRun_cons] at h
    split at h
    · injection h with h
      omega
    · rcases Option.map_eq_some'.mp h with ⟨n', _, hn⟩
      omega

theorem extract_balanced_segment_ne_nil {oc cc : Char} {t s : List Char}
    (h : extract_balanced_segment oc cc t = some s) : s ≠ [] := by
  cases t with
  | nil => exact absurd h (by simp [extract_balanced_segment])
  | cons c rest =>
    simp only [extract_balanced_segment] at h
    by_cases hc : c = oc
    · rw [if_pos hc] at h
      rcases Option.map_eq_some'.mp h with ⟨n, hn, hs⟩
      have hpos : 1 ≤ n := ebsRun_some_pos oc cc (c :: rest) 0 false false n hn
      cases n with
      | zero => omega
      | succ n' => rw [← hs]; simp [List.take_succ_cons]
    · rw [if_neg hc] at h
      exact absurd h (by simp)

theorem ebsRun_some_balance (oc cc : Char) :
    ∀ (cs : List Char) (bal : Int) (inStr esc : Bool) (n : Nat),
      bal ≠ 0 →
      ebsRun oc cc bal inStr esc cs = some n →
      0 < n ∧ n ≤ cs.length ∧
      (List.foldl (specStep oc cc) ⟨bal, inStr, esc⟩ (cs.take n)).bal = 0 ∧
      ∀ m, m < n → (List.foldl (specStep oc cc) ⟨bal, inStr, esc⟩ (cs.take m)).bal ≠ 0 := by
  intro cs
  induction cs with
  | nil => intro bal inStr esc n _ h; simp [ebsRun] at h
  | cons c rest ih =>
    intro bal inStr esc n hbal h
    rw [ebsRun_cons] at h
    by_cases hret : esc = false ∧ c ≠ '\\' ∧ (specStep oc cc ⟨bal, inStr, esc⟩ c).bal = 0
    · rw [if_pos hret] at h
      injection h with h
      subst h
      refine ⟨Nat.one_pos, by simp, ?_, ?_⟩
      · simpa [List.take_succ_cons] using hret.2.2
      · intro m hm
        rw [Nat.lt_one_iff.mp hm]
        simpa using hbal
    · rw [if_neg hret] at h
      rcases Option.map_eq_some'.mp h with ⟨n', hn', hnn⟩
      subst hnn
      have hbal' : (specStep oc cc ⟨bal, inStr, esc⟩ c).bal ≠ 0 :=
        specStep_bal_ne_zero hbal hret
      obtain ⟨h1, h2, h3, h4⟩ := ih (specStep oc cc ⟨bal, inStr, esc⟩ c).bal
        (specStep oc cc ⟨bal, inStr, esc⟩ c).inStr
        (specStep oc cc ⟨bal, inStr, esc⟩ c).esc n' hbal' hn'
      refine ⟨Nat.succ_pos n', by simpa using h2, ?_, ?_⟩
      · simpa [List.take_succ_cons, List.foldl_cons] using h3
      · intro m hm
        cases m with
        | zero => simpa using hbal
        | succ m' =>
          have := h4 m' (Nat.lt_of_succ_lt_succ hm)
          simpa [List.take_succ_cons, List.foldl_cons] using this

theorem ebsRun_none_balance (oc cc : Char) :
    ∀ (cs : List Char) (bal : Int) (inStr esc : Bool),
      bal ≠ 0 →
      ebsRun oc cc bal inStr esc cs = none →
      ∀ m, m ≤ cs.length →
        (List.foldl (specStep oc cc) ⟨bal, inStr, esc⟩ (cs.take m)).bal ≠ 0 := by
  intro cs
  induction cs with
  | nil =>
    intro bal inStr esc hbal _ m hm
    rw [Nat.le_zero.mp hm]
    simpa using hbal
  | cons c rest ih =>
    intro bal inStr esc hbal h
    rw [ebsRun_cons] at h
    by_cases hret : esc = false ∧ c ≠ '\\' ∧ (specStep oc cc ⟨bal, inStr, esc⟩ c).bal = 0
    · rw [if_pos hret] at h
      exact absurd h (by simp)
    · rw [if_neg hret] at h
      have hrec : ebsRun oc cc (specStep oc cc ⟨bal, inStr, esc⟩ c).bal
          (specStep oc cc ⟨bal, inStr, esc⟩ c).inStr
          (specStep oc cc ⟨bal, inStr, esc⟩ c).esc rest = none :=
        Option.map_eq_none'.mp h
      have hbal' : (specStep oc cc ⟨bal, inStr, esc⟩ c).bal ≠ 0 :=
        specStep_bal_ne_zero hbal hret
      intro m hm
      cases m with
      | zero => simpa using hbal
      | succ m' =>
        have := ih (specStep oc cc ⟨bal, inStr, esc⟩ c).bal
          (specStep oc cc ⟨bal, inStr, esc⟩ c).inStr
          (specStep oc cc ⟨bal, inStr, esc⟩ c).esc hbal' hrec m' (by simpa using hm)
        simpa [List.take_succ_cons, List.foldl_cons] using this

theorem ebsRun_some_last (oc cc : Char) :
    ∀ (cs : List Char) (bal : Int) (inStr esc : Bool) (n : Nat),
      1 ≤ bal →
      ebsRun oc cc bal inStr esc cs = some n →
      0 < n ∧ n ≤ cs.length ∧ ∃ pre, cs.take n = pre ++ [cc] := by
  intro cs
  induction cs with
  | nil => intro bal inStr esc n _ h; simp [ebsRun] at h
  | cons c rest ih =>
    intro bal inStr esc n hbal h
    rw [ebsRun_cons] at h
    by_cases hret : esc = false ∧ c ≠ '\\' ∧ (specStep oc cc ⟨bal, inStr, esc⟩ c).bal = 0
    · rw [if_pos hret] at h
      injection h with h
      subst h
      have hcc : c = cc := by
        rcases specStep_bal_mem oc cc bal inStr esc c hret.1 hret.2.1 with h0 | h0 | ⟨h0, _⟩
        · rw [hret.2.2] at h0; omega
        · rw [hret.2.2] at h0; omega
        · exact h0
      subst hcc
      exact ⟨Nat.one_pos, by simp, [], by simp [List.take_succ_cons]⟩
    · rw [if_neg hret] at h
      rcases Option.map_eq_some'.mp h with ⟨n', hn', hnn⟩
      subst hnn
      have hbal' : 1 ≤ (specStep oc cc ⟨bal, inStr, esc⟩ c).bal := by
        by_cases hesc : esc = true
        · rw [specStep_esc oc cc _ c hesc]
          exact hbal
        · have hesc' : esc = false := by revert hesc; cases esc <;> simp
          by_cases hc : c = '\\'
          · subst hc
            rw [specStep_backslash oc cc _ hesc']
            exact hbal
          · have hne : (specStep oc cc ⟨bal, inStr, esc⟩ c).bal ≠ 0 := by
              intro h0
              exact hret ⟨hesc', hc, h0⟩
            rcases specStep_bal_mem oc cc bal inStr esc c hesc' hc
              with h0 | h0 | ⟨_, h0⟩ <;> rw [h0] at hne ⊢ <;> omega
      obtain ⟨h1, h2, pre, hpre⟩ := ih (specStep oc cc ⟨bal, inStr, esc⟩ c).bal
        (specStep oc cc ⟨bal, inStr, esc⟩ c).inStr
        (specStep oc cc ⟨bal, inStr, esc⟩ c).esc n' hbal' hn'
      refine ⟨Nat.succ_pos n', by simpa using h2, c :: pre, ?_⟩
      rw [List.take_succ_cons, hpre]
      rfl

theorem specStep_init_open (oc cc : Char) (hq : oc ≠ '"') (hb : oc ≠ '\\') :
    specStep oc cc ⟨0, false, false⟩ oc = ⟨1, false, false⟩ := by
  unfold specStep
  simp [hq, hb]

theorem ebsRun_cons_open (oc cc : Char) (rest : List Char) (hq : oc ≠ '"')
    (hb : oc ≠ '\\') :
    ebsRun oc cc 0 false false (oc :: rest) =
      (ebsRun oc cc 1 false false rest).map (· + 1) := by
  rw [ebsRun_cons, specStep_init_open oc cc hq hb]
  simp

theorem ebsRun_cons_quote (cc : Char) (rest : List Char) :
    ebsRun '"' cc 0 false false ('"' :: rest) = some 1 := by
  have h1 : specStep '"' cc ⟨0, false, false⟩ '"' = ⟨0, true, false⟩ := by
    unfold specStep
    simp
  rw [ebsRun_cons, h1]
  simp

theorem extract_balanced_segment_open (oc cc : Char) (rest : List Char)
    (hq : oc ≠ '"') (hb : oc ≠ '\\') :
    extract_balanced_segment oc cc (oc :: rest) =
      (ebsRun oc cc 1 false false rest).map (fun n => (oc :: rest).take (n + 1)) := by
  simp only [extract_balanced_segment, if_pos rfl, ebsRun_cons_open oc cc rest hq hb,
    Option.map_map]
  rfl

/-! ### The claims -/

/-- Claim C2: for every input text and every decoder/schema, the extraction
has exactly two possible outcomes — a `SUCCESS` result or the
`FAILURE` result with no values (in the embedding every per-candidate
failure is an absorbed `none`, so no exception leaves the function) — and
every per-candidate failure merely advances the scan position by one
character. -/
theorem extract_no_exception_two_outcomes {M : Type} (decode : List Char → Option Json)
    (validate : Json → Option M) :
    (∀ text : List Char,
        (∃ vs, extract_json_from_text decode validate text =
          ⟨ExtractionStatus.SUCCESS, vs⟩) ∨
        extract_json_from_text decode validate text = ⟨ExtractionStatus.FAILURE, []⟩) ∧
    (∀ (c : Char) (rest : List Char),
        stepAt decode validate (c :: rest) = none →
        scanStep decode validate (c :: rest) = scanStep decode validate rest) := by
  constructor
  · intro text
    rcases extract_dichotomy decode validate text with h | ⟨vs, h⟩
    · exact Or.inr h
    · exact Or.inl ⟨vs, h⟩
  · intro c rest h
    exact scanStep_cons_none h

/-- Claim C2 witness: per-candidate failure at a concrete position advances
the scan by one character. -/
theorem extract_no_exception_two_outcomes_witness :
    scanStep decodeW validateW ['a', '{'] = scanStep decodeW validateW ['{'] :=
  (extract_no_exception_two_outcomes decodeW validateW).2 'a' ['{'] (by decide)

/-- Claim C6: whenever the result status is `FAILURE`, the sequence of
parsed objects is empty (the converse is not required). -/
theorem extract_failure_implies_empty {M : Type} (decode : List Char → Option Json)
    (validate : Json → Option M) (text : List Char)
    (h : (extract_json_from_text decode validate text).status = ExtractionStatus.FAILURE) :
    (extract_json_from_text decode validate text).parsed_objects = [] := by
  rcases extract_dichotomy decode validate text with heq | ⟨vs, heq⟩
  · rw [heq]
  · rw [heq] at h
    exact absurd h (by simp)

/-- Claim C6 witness: a concrete failing extraction, with the invariant
instantiated on it. -/
theorem extract_failure_implies_empty_witness :
    (extract_json_from_text decodeW validateW ['a']).status = ExtractionStatus.FAILURE ∧
    (extract_json_from_text decodeW validateW ['a']).parsed_objects = [] :=
  ⟨by decide, extract_failure_implies_empty decodeW validateW ['a'] (by decide)⟩

/-- Claim C7: if no candidate at any position succeeds the scan reaches the
end of the text and returns `FAILURE` with no values; in particular this
holds for any text containing no `{` and no `[` character. -/
theorem extract_no_success_scans_to_failure {M : Type} (decode : List Char → Option Json)
    (validate : Json → Option M) (text : List Char) :
    ((∀ j, j < text.length → stepAt decode validate (text.drop j) = none) →
      extract_json_from_text decode validate text = ⟨ExtractionStatus.FAILURE, []⟩) ∧
    ((∀ c, c ∈ text → c ≠ '{' ∧ c ≠ '[') →
      extract_json_from_text decode validate text = ⟨ExtractionStatus.FAILURE, []⟩) := by
  have main : (∀ j, j < text.length → stepAt decode validate (text.drop j) = none) →
      extract_json_from_text decode validate text = ⟨ExtractionStatus.FAILURE, []⟩ := by
    intro h
    unfold extract_json_from_text
    by_cases ht : text = []
    · rw [if_pos ht]
    · rw [if_neg ht]
      exact scanStep_eq_failure decode validate text h
  refine ⟨main, fun hnb => main fun j hj => ?_⟩
  cases hd : text.drop j with
  | nil => rfl
  | cons c rest =>
    have hc : c ∈ text := by
      refine List.mem_of_mem_drop (n := j) ?_
      rw [hd]
      exact List.mem_cons_self c rest
    obtain ⟨h1, h2⟩ := hnb c hc
    exact stepAt_eq_none_of_not_bracket h1 h2

/-- Claim C7 witness: a concrete bracket-free text scans to failure. -/
theorem extract_no_success_scans_to_failure_witness :
    extract_json_from_text decodeW validateW ['a', 'b'] = ⟨ExtractionStatus.FAILURE, []⟩ :=
  (extract_no_success_scans_to_failure decodeW validateW ['a', 'b']).2 (by decide)

/-- Claim C8: on the empty input text the extraction returns `FAILURE` with
an empty sequence immediately (the early return before the scan loop). -/
theorem extract_empty_text_failure {M : Type} (decode : List Char → Option Json)
    (validate : Json → Option M) :
    extract_json_from_text decode validate [] = ⟨ExtractionStatus.FAILURE, []⟩ := rfl

/-- Claim C10: when the stated precondition of `_extract_balanced_segment`
is violated — the segment is empty or its first character is not
`open_char` — the function returns `none` rather than misbehaving. -/
theorem extract_balanced_precondition_returns_none (oc cc : Char) (text : List Char)
    (h : text = [] ∨ text.head? ≠ some oc) :
    extract_balanced_segment oc cc text = none := by
  cases text with
  | nil => rfl
  | cons c rest =>
    rcases h with h | h
    · exact absurd h (by simp)
    · have hc : c ≠ oc := by simpa using h
      simp [extract_balanced_segment, hc]

/-- Claim C10 witness: a concrete segment starting with the wrong character
yields `none`. -/
theorem extract_balanced_precondition_returns_none_witness :
    extract_balanced_segment '{' '}' ['a', '}'] = none :=
  extract_balanced_precondition_returns_none '{' '}' ['a', '}'] (by decide)

/-- Claim C1: the scan runs left to right from index 0 and returns at the
first (leftmost-starting) successful candidate; when that candidate is a
balanced bracketed segment that decodes as a JSON object validating to
instance `m`, the result is `SUCCESS` with exactly the one-element sequence
`[m]` — whatever the text holds at later positions (the conclusion holds
for every continuation, so the scan never examines them). -/
theorem extract_returns_first_validating_object {M : Type}
    (decode : List Char → Option Json) (validate : Json → Option M)
    (text : List Char) (i : Nat) (c : Char) (rest s : List Char)
    (fields : List (List Char × Json)) (m : M)
    (hfirst : ∀ j, j < i → stepAt decode validate (text.drop j) = none)
    (hdrop : text.drop i = c :: rest)
    (hseg : (c = '{' ∧ extract_balanced_segment '{' '}' (c :: rest) = some s) ∨
            (c = '[' ∧ extract_balanced_segment '[' ']' (c :: rest) = some s))
    (hdec : decode s = some (Json.obj fields))
    (hval : validate (Json.obj fields) = some m) :
    extract_json_from_text decode validate text =
      ⟨ExtractionStatus.SUCCESS, [m]⟩ := by
  have hstep : stepAt decode validate (c :: rest) =
      some ⟨ExtractionStatus.SUCCESS, [m]⟩ := by
    rcases hseg with ⟨rfl, hs⟩ | ⟨rfl, hs⟩ <;>
      simp [stepAt, candAt, hs, extract_balanced_segment_ne_nil hs,
        tryCandidate, hdec, hval]
  have htext : text ≠ [] := by
    intro h
    rw [h, List.drop_nil] at hdrop
    exact absurd hdrop (by simp)
  unfold extract_json_from_text
  rw [if_neg htext]
  exact scanStep_eq_of_first decode validate text i _ hfirst (by rw [hdrop]; exact hstep)

/-- Claim C1 witness: a concrete text whose candidate at position 0 is a
balanced segment decoding to a validating object. -/
theorem extract_returns_first_validating_object_witness :
    extract_json_from_text decodeW validateW ['{', 'x', '}'] =
      ⟨ExtractionStatus.SUCCESS, [7]⟩ :=
  extract_returns_first_validating_object decodeW validateW ['{', 'x', '}'] 0 '{'
    ['x', '}'] ['{', 'x', '}'] [] 7
    (fun j hj => absurd hj (Nat.not_lt_zero j))
    rfl (Or.inl ⟨rfl, by decide⟩) rfl rfl

/-- Claim C3: a candidate that decodes as a JSON array one of whose
elements is not an object, or fails validation, is discarded whole: the
step at its position yields no result, the scan advances by one character,
and if no other position ever succeeds the overall result is `FAILURE`. -/
theorem extract_array_bad_element_discards_candidate {M : Type}
    (decode : List Char → Option Json) (validate : Json → Option M)
    (text : List Char) (i : Nat) (c : Char) (rest s : List Char)
    (elems : List Json) (e : Json)
    (hdrop : text.drop i = c :: rest)
    (hseg : (c = '{' ∧ extract_balanced_segment '{' '}' (c :: rest) = some s) ∨
            (c = '[' ∧ extract_balanced_segment '[' ']' (c :: rest) = some s))
    (hdec : decode s = some (Json.arr elems))
    (he : e ∈ elems)
    (hbad : (∀ f, e ≠ Json.obj f) ∨ validate e = none) :
    stepAt decode validate (c :: rest) = none ∧
    scanStep decode validate (c :: rest) = scanStep decode validate rest ∧
    ((∀ j, j < text.length → j ≠ i → stepAt decode validate (text.drop j) = none) →
      extract_json_from_text decode validate text =
        ⟨ExtractionStatus.FAILURE, []⟩) := by
  have hva : validateArray validate elems = none :=
    validateArray_eq_none validate elems e he hbad
  have hstep : stepAt decode validate (c :: rest) = none := by
    rcases hseg with ⟨rfl, hs⟩ | ⟨rfl, hs⟩ <;>
      simp [stepAt, candAt, hs, tryCandidate, hdec, hva]
  refine ⟨hstep, scanStep_cons_none hstep, fun hall => ?_⟩
  have htext : text ≠ [] := by
    intro h
    rw [h, List.drop_nil] at hdrop
    exact absurd hdrop (by simp)
  unfold extract_json_from_text
  rw [if_neg htext]
  refine scanStep_eq_failure decode validate text fun j hj => ?_
  by_cases hji : j = i
  · subst hji
    rw [hdrop]
    exact hstep
  · exact hall j hj hji

/-- Claim C3 witness: a concrete array candidate holding a non-object
element is discarded and the whole scan fails. -/
theorem extract_array_bad_element_discards_candidate_witness :
    stepAt decodeW validateW ['[', '1', ']'] = none ∧
    scanStep decodeW validateW ['[', '1', ']'] = scanStep decodeW validateW ['1', ']'] ∧
    extract_json_from_text decodeW validateW ['[', '1', ']'] =
      ⟨ExtractionStatus.FAILURE, []⟩ := by
  have h := extract_array_bad_element_discards_candidate decodeW validateW
    ['[', '1', ']'] 0 '[' ['1', ']'] ['[', '1', ']'] [Json.num 1] (Json.num 1)
    rfl (Or.inr ⟨rfl, by decide⟩) rfl (List.mem_singleton.mpr rfl)
    (Or.inl fun f hf => Json.noConfusion hf)
  exact ⟨h.1, h.2.1, h.2.2 (by decide)⟩

/-- Claim C4: when the first successful candidate decodes as a JSON array
all of whose elements are objects validating (in order) to the sequence
`ms`, the result is `SUCCESS` with exactly `ms` in the array's original
order; when the array is empty (`ms = []`) this is `SUCCESS` with zero
values. -/
theorem extract_array_all_valid_success {M : Type}
    (decode : List Char → Option Json) (validate : Json → Option M)
    (text : List Char) (i : Nat) (c : Char) (rest s : List Char)
    (elems : List Json) (ms : List M)
    (hfirst : ∀ j, j < i → stepAt decode validate (text.drop j) = none)
    (hdrop : text.drop i = c :: rest)
    (hseg : (c = '{' ∧ extract_balanced_segment '{' '}' (c :: rest) = some s) ∨
            (c = '[' ∧ extract_balanced_segment '[' ']' (c :: rest) = some s))
    (hdec : decode s = some (Json.arr elems))
    (hval : List.Forall₂ (fun e m => (∃ f, e = Json.obj f) ∧ validate e = some m)
      elems ms) :
    extract_json_from_text decode validate text =
      ⟨ExtractionStatus.SUCCESS, ms⟩ := by
  have hva : validateArray validate elems = some ms := validateArray_eq_some validate hval
  have hstep : stepAt decode validate (c :: rest) =
      some ⟨ExtractionStatus.SUCCESS, ms⟩ := by
    rcases hseg with ⟨rfl, hs⟩ | ⟨rfl, hs⟩ <;>
      simp [stepAt, candAt, hs, extract_balanced_segment_ne_nil hs,
        tryCandidate, hdec, hva]
  have htext : text ≠ [] := by
    intro h
    rw [h, List.drop_nil] at hdrop
    exact absurd hdrop (by simp)
  unfold extract_json_from_text
  rw [if_neg htext]
  exact scanStep_eq_of_first decode validate text i _ hfirst (by rw [hdrop]; exact hstep)

/-- Claim C4 witness: a concrete empty-array candidate yields `SUCCESS`
with zero values. -/
theorem extract_array_all_valid_success_witness :
    extract_json_from_text decodeW validateW ['[', ']'] =
      ⟨ExtractionStatus.SUCCESS, []⟩ :=
  extract_array_all_valid_success decodeW validateW ['[', ']'] 0 '[' [']'] ['[', ']']
    [] []
    (fun j hj => absurd hj (Nat.not_lt_zero j))
    rfl (Or.inr ⟨rfl, by decide⟩) rfl List.Forall₂.nil

/-- Claim C5, counterexample: with `open_char` the backslash character the
claim fails — on the text `\ax` (whose first character equals `open_char`)
the function returns the whole three-character segment although the
one-character prefix already has balance zero, so the returned segment is
not the shortest balance-zero prefix. -/
theorem extract_balanced_shortest_segment_cex :
    extract_balanced_segment '\\' '}' ['\\', 'a', 'x'] = some ['\\', 'a', 'x'] ∧
    (0 : Nat) < 1 ∧ (1 : Nat) < 3 ∧
    specBal '\\' '}' (List.take 1 ['\\', 'a', 'x']) = 0 := by decide

/-- Claim C5 (amended): provided `open_char` is not the backslash character
(at both engine call sites it is `{` or `[`), for every text whose first
character equals `open_char`, `_extract_balanced_segment` returns the
shortest non-empty prefix whose bracket balance — incrementing on
`open_char`, decrementing on `close_char`, with characters inside a
double-quoted string and the character following a backslash not counted —
is zero, and returns `none` exactly when no prefix reaches balance zero
before the text ends. -/
theorem extract_balanced_shortest_segment (oc cc : Char) (text : List Char)
    (hb : oc ≠ '\\') (hhead : text.head? = some oc) :
    (∀ s, extract_balanced_segment oc cc text = some s →
        ∃ n, 0 < n ∧ n ≤ text.length ∧ s = text.take n ∧
          specBal oc cc (text.take n) = 0 ∧
          ∀ m, 0 < m → m < n → specBal oc cc (text.take m) ≠ 0) ∧
    (extract_balanced_segment oc cc text = none →
        ∀ m, 0 < m → m ≤ text.length → specBal oc cc (text.take m) ≠ 0) := by
  obtain ⟨c, rest, rfl⟩ : ∃ c rest, text = c :: rest := by
    cases text with
    | nil => exact absurd hhead (by simp)
    | cons c rest => exact ⟨c, rest, rfl⟩
  obtain rfl : c = oc := by simpa using hhead
  by_cases hq : c = '"'
  · subst hq
    have hrun : ebsRun '"' cc 0 false false ('"' :: rest) = some 1 :=
      ebsRun_cons_quote cc rest
    constructor
    · intro s hs
      simp only [extract_balanced_segment, if_true, hrun, Option.map_some',
        Option.some.injEq] at hs
      refine ⟨1, Nat.one_pos, by simp, hs.symm, ?_, ?_⟩
      · rw [List.take_succ_cons, List.take_zero]
        unfold specBal
        rw [List.foldl_cons, List.foldl_nil]
        unfold specStep
        simp
      · intro m hm0 hm1
        omega
    · intro hnone
      simp only [extract_balanced_segment, if_true, hrun, Option.map_some'] at hnone
      exact absurd hnone (by simp)
  · have hopen := extract_balanced_segment_open c cc rest hq hb
    constructor
    · intro s hs
      rw [hopen] at hs
      rcases Option.map_eq_some'.mp hs with ⟨n', hn', hsn⟩
      obtain ⟨h1, h2, h3, h4⟩ :=
        ebsRun_some_balance c cc rest 1 false false n' one_ne_zero hn'
      refine ⟨n' + 1, Nat.succ_pos n', by simpa using h2, hsn.symm, ?_, ?_⟩
      · rw [List.take_succ_cons]
        unfold specBal
        rw [List.foldl_cons, specStep_init_open c cc hq hb]
        exact h3
      · intro m hm0 hmlt
        cases m with
        | zero => omega
        | succ m' =>
          rw [List.take_succ_cons]
          unfold specBal
          rw [List.foldl_cons, specStep_init_open c cc hq hb]
          exact h4 m' (by omega)
    · intro hnone
      rw [hopen] at hnone
      have hrun : ebsRun c cc 1 false false rest = none := Option.map_eq_none'.mp hnone
      intro m hm0 hmle
      cases m with
      | zero => omega
      | succ m' =>
        rw [List.take_succ_cons]
        unfold specBal
        rw [List.foldl_cons, specStep_init_open c cc hq hb]
        exact ebsRun_none_balance c cc rest 1 false false one_ne_zero hrun m'
          (by simpa using hmle)

/-- Claim C5 witness: on the concrete text `{a}` with the engine's bracket
pair, the returned segment is the shortest balance-zero prefix. -/
theorem extract_balanced_shortest_segment_witness :
    ∃ n, 0 < n ∧ n ≤ (['{', 'a', '}'] : List Char).length ∧
      (['{', 'a', '}'] : List Char) = List.take n ['{', 'a', '}'] ∧
      specBal '{' '}' (List.take n ['{', 'a', '}']) = 0 ∧
      ∀ m, 0 < m → m < n → specBal '{' '}' (List.take m ['{', 'a', '}']) ≠ 0 :=
  (extract_balanced_shortest_segment '{' '}' ['{', 'a', '}'] (by decide) (by decide)).1
    ['{', 'a', '}'] (by decide)

/-- Claim C9, counterexample: with `open_char` a double quote the returned
segment has length 1 — less than 2 and with last character equal to
`open_char`, not `close_char`; with `open_char` a backslash the returned
segment's last character is not `close_char` either. -/
theorem extract_balanced_some_shape_cex :
    (extract_balanced_segment '"' '}' ['"'] = some ['"'] ∧
      ¬ 2 ≤ (['"'] : List Char).length) ∧
    (extract_balanced_segment '\\' '}' ['\\', 'a', 'x'] = some ['\\', 'a', 'x'] ∧
      (['\\', 'a', 'x'] : List Char).getLast? ≠ some '}') := by decide

/-- Claim C9 (amended): provided `open_char` is neither a double quote nor
a backslash (at both engine call sites it is `{` or `[`), whenever
`_extract_balanced_segment` returns a substring, that substring is a prefix
of the input segment, its first character is `open_char`, its last
character is `close_char`, and its length is at least 2. -/
theorem extract_balanced_some_shape (oc cc : Char) (text s : List Char)
    (hq : oc ≠ '"') (hb : oc ≠ '\\')
    (h : extract_balanced_segment oc cc text = some s) :
    (∃ t, s ++ t = text) ∧ s.head? = some oc ∧ s.getLast? = some cc ∧
      2 ≤ s.length := by
  obtain ⟨c, rest, rfl⟩ : ∃ c rest, text = c :: rest := by
    cases text with
    | nil => exact absurd h (by simp [extract_balanced_segment])
    | cons c rest => exact ⟨c, rest, rfl⟩
  obtain rfl : c = oc := by
    by_contra hc
    simp [extract_balanced_segment, hc] at h
  rw [extract_balanced_segment_open c cc rest hq hb] at h
  rcases Option.map_eq_some'.mp h with ⟨n', hn', hsn⟩
  obtain ⟨h1, h2, pre, hpre⟩ := ebsRun_some_last c cc rest 1 false false n' le_rfl hn'
  subst hsn
  refine ⟨⟨(c :: rest).drop (n' + 1), List.take_append_drop _ _⟩, ?_, ?_, ?_⟩
  · rw [List.take_succ_cons]
    rfl
  · rw [List.take_succ_cons, hpre]
    show ((c :: pre) ++ [cc]).getLast? = some cc
    rw [List.getLast?_append_cons]
    rfl
  · rw [List.take_succ_cons]
    simp only [List.length_cons, List.length_take]
    omega

/-- Claim C9 witness: a concrete successful extraction whose segment starts
with `{`, ends with `}` and has length at least 2. -/
theorem extract_balanced_some_shape_witness :
    (∃ t, ['{', 'a', '}'] ++ t = (['{', 'a', '}'] : List Char)) ∧
    (['{', 'a', '}'] : List Char).head? = some '{' ∧
    (['{', 'a', '}'] : List Char).getLast? = some '}' ∧
    2 ≤ (['{', 'a', '}'] : List Char).length :=
  extract_balanced_some_shape '{' '}' ['{', 'a', '}'] ['{', 'a', '}'] (by decide)
    (by decide) (by decide)

end Llmstruct
